import Mathlib

/-!
Shallow embedding of the market-data update pipeline:
`scripts/update_market_data.py` (orchestrator, price alignment, net-value
computation, history merge, live-weight rebalancing) and
`public/price/alpha_vantage.py` (provider response handling).

Dates are modelled as day numbers (`Nat`); prices and weights as `ℚ`.
Fallible code (`raise SystemExit`, uncaught exceptions) is modelled with
`Except String`; the two persisted outputs of a run are recorded in a
`RunOutput` value instead of being written to disk.
-/

namespace MarketData

/-- A row of the persisted net-value series (`net_values.csv`):
date, net value, day-over-day percent change. -/
structure NVRow where
  date : Nat
  net_value : ℚ
  pct_change : ℚ
deriving DecidableEq, Repr

/-! ## `public/price/alpha_vantage.py` -/

/-- One daily bar of the provider response: a field map such as
`"1. open" ↦ 100`, `"5. adjusted close" ↦ 99`.  A malformed bar is one
missing some of the fields the parser reads. -/
structure AVBar where
  fields : List (String × ℚ)
deriving DecidableEq, Repr

/-- Abstraction of what one HTTP call to the provider yields:
either the request/JSON-decode phase fails, or a JSON object with an
optional `Time Series (Daily)` member (keyed by day), an optional `Note`
and an optional `Error Message`. -/
inductive AVJson where
  | invalid : AVJson
  | obj : Option (List (Nat × AVBar)) → Option String → Option String → AVJson
deriving DecidableEq

/-- The `try:` block of `get_daily_historic_data`: fetch, decode, and look
up `Time Series (Daily)`; a missing member raises `RuntimeError` with the
`Note` / `Error Message` text, which the surrounding `except` catches. -/
def avTryPhase : AVJson → Except String (List (Nat × AVBar))
  | .invalid => .error "request or JSON decode failed"
  | .obj none note errMsg =>
      .error ((note.or errMsg).getD "Unknown API response.")
  | .obj (some data) _ _ => .ok data

/-- `float(bar["..."])`: field lookup in a bar; a missing field raises
`KeyError` (uncaught by the source). -/
def barField (bar : AVBar) (name : String) : Except String ℚ :=
  match bar.fields.lookup name with
  | some v => .ok v
  | none => .error ("KeyError: " ++ name)

/-- Parse one bar exactly as the source's tuple construction does,
reading every field it reads; the result keeps the adjusted close. -/
def parseBar (d : Nat) (bar : AVBar) : Except String (Nat × ℚ) := do
  let _o ← barField bar "1. open"
  let _h ← barField bar "2. high"
  let _l ← barField bar "3. low"
  let _c ← barField bar "4. close"
  let _v ← barField bar "6. volume"
  let adj ← barField bar "5. adjusted close"
  pure (d, adj)

/-- The parse loop of `get_daily_historic_data`: keys in sorted order,
rows outside `[start_date, end_date]` skipped, each kept bar parsed. -/
def parseRows (start_date end_date : Nat) : List (Nat × AVBar) → Except String (List (Nat × ℚ))
  | [] => .ok []
  | (d, bar) :: rest =>
      if d < start_date ∨ end_date < d then
        parseRows start_date end_date rest
      else do
        let row ← parseBar d bar
        let tail ← parseRows start_date end_date rest
        pure (row :: tail)

/-- `sorted(data.keys())`: bars in ascending date order. -/
def sortBars (l : List (Nat × AVBar)) : List (Nat × AVBar) :=
  List.insertionSort (fun a b => a.1 ≤ b.1) l

/-- `AlphaVantage.get_daily_historic_data`: any failure inside the `try`
block is caught and yields an empty frame (`.ok []`); failures in the
parse loop (malformed bars) propagate (`.error`). -/
def get_daily_historic_data (resp : AVJson) (start_date end_date : Nat) :
    Except String (List (Nat × ℚ)) :=
  match avTryPhase resp with
  | .error _ => .ok []
  | .ok data => parseRows start_date end_date (sortBars data)

/-! ## `scripts/update_market_data.py`: fetching and alignment -/

/-- A per-ticker price series: (date, adjusted close) in date order. -/
abbrev PriceSeries := List (Nat × ℚ)

/-- The aligned price matrix: rows (date, prices in ticker order). -/
abbrev Frame := List (Nat × List ℚ)

/-- `series[(series.index >= start_date) & (series.index <= end_date)]`. -/
def windowFilter (s e : Nat) (xs : PriceSeries) : PriceSeries :=
  xs.filter (fun p => decide (s ≤ p.1) && decide (p.1 ≤ e))

/-- The per-ticker body of `fetch_prices`: call the provider with a
7-day-padded start, abort if the frame is empty, restrict to the
requested window, abort if that is empty. -/
def fetchSeries (responses : String → AVJson) (ticker : String)
    (start_date end_date : Nat) : Except String PriceSeries :=
  match get_daily_historic_data (responses ticker) (start_date - 7) end_date with
  | .error e => .error e
  | .ok df =>
      if df.isEmpty then
        .error ("No data returned for " ++ ticker ++ "; aborting update.")
      else
        let series := windowFilter start_date end_date df
        if series.isEmpty then
          .error ("No data in requested window for " ++ ticker)
        else
          .ok series

/-- The dates of a price series. -/
def seriesDates (s : PriceSeries) : List Nat := s.map Prod.fst

/-- Dates present in every series (inner join of the date indexes),
listed in the order of the first series. -/
def commonDates : List PriceSeries → List Nat
  | [] => []
  | s :: rest =>
      (seriesDates s).filter (fun d => rest.all (fun t => decide (d ∈ seriesDates t)))

/-- The row of ticker-ordered prices at a common date. -/
def rowAt (ls : List PriceSeries) (d : Nat) : List ℚ :=
  ls.map (fun s => (s.lookup d).getD 0)

/-- `pd.concat(series_map, axis=1, join="inner").sort_index()`:
rows at the sorted common dates, columns in the callers series order. -/
def alignFrames (ls : List PriceSeries) : Frame :=
  (List.insertionSort (fun a b => a ≤ b) (commonDates ls)).map (fun d => (d, rowAt ls d))

/-- `fetch_prices`: one provider call per ticker in order, then inner-join
alignment; an empty aligned frame is fatal. -/
def fetch_prices (responses : String → AVJson) (tickers : List String)
    (start_date end_date : Nat) : Except String Frame :=
  match tickers.mapM (fun t => fetchSeries responses t start_date end_date) with
  | .error e => .error e
  | .ok seriesList =>
      let frame := alignFrames seriesList
      if frame.isEmpty then
        .error "No overlapping trading days across tickers."
      else
        .ok frame

/-! ## Net-value computation -/

/-- The weighted relative-price terms of one row:
`weight_frac * (price / base_price)`, ticker by ticker. -/
def weightedTerms (w base ps : List ℚ) : List ℚ :=
  List.zipWith (fun wi pr => wi * pr) w (List.zipWith (fun p b => p / b) ps base)

/-- `portfolio_value` at one row: the sum of the weighted relative prices. -/
def portVal (w base ps : List ℚ) : ℚ := (weightedTerms w base ps).sum

/-- `net_value.pct_change()` over the tail of the series, given the
previous net value: `cur / prev - 1` for each consecutive pair. -/
def pctRows : ℚ → List (Nat × ℚ) → List NVRow
  | _, [] => []
  | prev, (d, v) :: rest => ⟨d, v, v / prev - 1⟩ :: pctRows v rest

/-- `compute_net_values`: baseline prices are the first row, portfolio
value is the weighted sum of relative prices, net value rescales by the
first portfolio value times `start_value`, percent change is
day-over-day with the first row's `NaN` filled with `0.0`. -/
def compute_net_values (frame : Frame) (w : List ℚ) (start_value : ℚ) : List NVRow :=
  match frame with
  | [] => []
  | (d0, base) :: rest =>
      let pv0 := portVal w base base
      let nv0 := pv0 / pv0 * start_value
      let nvRest := rest.map (fun r => (r.1, portVal w base r.2 / pv0 * start_value))
      ⟨d0, nv0, 0⟩ :: pctRows nv0 nvRest

/-! ## Live weights -/

/-- `(latest_weights * 100).round(4)` on one entry: round to 4 decimal
places. -/
def roundTo4 (x : ℚ) : ℚ := (round (x * 10000) : ℤ) / 10000

/-- `update_live_weights`: latest portfolio share of each ticker from the
first and last rows of the frame, as a percentage rounded to 4 decimals;
no re-normalization after rounding. -/
def update_live_weights (weight_frac : List ℚ) (frame : Frame) : List ℚ :=
  match frame with
  | [] => []
  | first :: rest =>
      let base := first.2
      let latest := (rest.getLastD first).2
      let latest_values := weightedTerms weight_frac base latest
      let s := latest_values.sum
      latest_values.map (fun v => roundTo4 (v / s * 100))

/-! ## Loading and choosing a persisted history -/

/-- `df.sort_values("date")` on a loaded net-value file. -/
def sortRows (rows : List NVRow) : List NVRow :=
  List.insertionSort (fun a b => a.date ≤ b.date) rows

/-- `drop_duplicates(subset="date", keep="last")` on a date-sorted list:
of each run of equal dates, the last row is kept. -/
def dedupKeepLast : List NVRow → List NVRow
  | [] => []
  | [a] => [a]
  | a :: b :: t =>
      if a.date = b.date then dedupKeepLast (b :: t)
      else a :: dedupKeepLast (b :: t)

/-- `load_net_values`: parse dates, sort by date, drop duplicate dates
keeping the last occurrence. -/
def load_net_values (rows : List NVRow) : List NVRow :=
  dedupKeepLast (sortRows rows)

/-- `df["date"].min()`: the earliest date of a candidate history. -/
def minDate : List NVRow → Nat
  | [] => 0
  | [a] => a.date
  | a :: b :: t => min a.date (minDate (b :: t))

/-- `min(loaded, key=lambda d: d["date"].min())`: the candidate with the
earliest start date; on ties the first one, as Python's `min` keeps the
incumbent unless a strictly smaller key appears. -/
def chooseEarliest (cands : List (List NVRow)) : Option (List NVRow) :=
  match cands with
  | [] => none
  | c :: rest =>
      some (rest.foldl (fun best d => if minDate d < minDate best then d else best) c)

/-! ## The orchestrator (`main`) -/

/-- The externally visible effect of one run: the contents written to
`net_values.csv` and `portfolio.csv` (if written), and the fatal error
message (if the run aborted). -/
structure RunOutput where
  netValuesWrite : Option (List NVRow)
  livePortfolioWrite : Option (List ℚ)
  fatal : Option String
deriving DecidableEq, Repr

/-- The tail of `main`: "Always refresh live weights using latest
prices" — a fresh fetch over `[rebalance_date, today]` followed by the
live-portfolio write; a fetch failure aborts with whatever was already
written. -/
def liveWeightsStep (rebalance_date today : Nat) (tickers : List String)
    (weight_frac : List ℚ) (responses : String → AVJson)
    (netWrite : Option (List NVRow)) : RunOutput :=
  match fetch_prices responses tickers rebalance_date today with
  | .error e => ⟨netWrite, none, some e⟩
  | .ok frame => ⟨netWrite, some (update_live_weights weight_frac frame), none⟩

/-- The `else` branch of `main`: no usable persisted history; abort if
today is on or before the rebalance date, otherwise compute a fresh
series from `rebalance_date` with `start_value = 1.0`, write it, and
fall through to the live-weights step. -/
def freshBranch (rebalance_date today : Nat) (tickers : List String)
    (weight_frac : List ℚ) (responses : String → AVJson) : RunOutput :=
  if today ≤ rebalance_date then
    ⟨none, none, some "Today is before or on the rebalance date; nothing to update."⟩
  else
    match fetch_prices responses tickers rebalance_date today with
    | .error e => ⟨none, none, some e⟩
    | .ok frame =>
        liveWeightsStep rebalance_date today tickers weight_frac responses
          (some (compute_net_values frame weight_frac 1))

/-- `main`: load the base portfolio (deriving `weight_frac`), load the
candidate histories and choose the one with the earliest start date; if
it is nonempty and today is not newer than its last date, return with no
writes; otherwise fetch `[max(rebalance_date, last_date), today]`,
compute the segment anchored at `last_value`, drop its first row, append
and write; finally refresh live weights. -/
def main (rebalance_date : Nat) (base : List (String × ℚ))
    (candidates : List (List NVRow)) (today : Nat)
    (responses : String → AVJson) : RunOutput :=
  let tickers := base.map Prod.fst
  let ws := base.map Prod.snd
  let weight_frac := ws.map (fun w => w / ws.sum)
  let loaded := candidates.map load_net_values
  match chooseEarliest loaded with
  | some existing =>
      match existing.getLast? with
      | some lastRow =>
          if today ≤ lastRow.date then
            ⟨none, none, none⟩
          else
            match fetch_prices responses tickers (max rebalance_date lastRow.date) today with
            | .error e => ⟨none, none, some e⟩
            | .ok frame =>
                let net_values := compute_net_values frame weight_frac lastRow.net_value
                let combined := existing ++ net_values.drop 1
                liveWeightsStep rebalance_date today tickers weight_frac responses
                  (some combined)
      | none => freshBranch rebalance_date today tickers weight_frac responses
  | none => freshBranch rebalance_date today tickers weight_frac responses

/-! ## Concrete provider fixtures -/

/-- A provider bar carrying every field the parser reads, with the given
adjusted close. -/
def goodBar (p : ℚ) : AVBar :=
  ⟨[("1. open", p), ("2. high", p), ("3. low", p), ("4. close", p),
    ("6. volume", 1), ("5. adjusted close", p)]⟩

/-- Provider fixture for the C3 counterexample: trading days 10, 11, 12
only (the legacy history ends earlier, at day 5). -/
def respC3 : String → AVJson := fun _ =>
  AVJson.obj (some [(10, goodBar 100), (11, goodBar 110), (12, goodBar 121)]) none none

/-- Provider fixture for the C2 counterexample: a malformed bar at day 96
sits inside the 7-day pad of the live-weights window (start `101 - 7 =
94`) but outside the pad of the history window (start `105 - 7 = 98`),
so the first fetch succeeds and the second raises. -/
def respC2 : String → AVJson := fun _ =>
  AVJson.obj (some [(96, ⟨[]⟩), (105, goodBar 100), (106, goodBar 110), (107, goodBar 121)])
    none none

/-- Provider fixture whose JSON carries no time series (for example a
rate-limit note): the source returns an empty frame for it. -/
def respEmpty : String → AVJson := fun _ => AVJson.obj none none none

/-- Provider fixture with trading days 5, 6, 7 and full bars. -/
def respOk : String → AVJson := fun _ =>
  AVJson.obj (some [(5, goodBar 100), (6, goodBar 110), (7, goodBar 121)]) none none

/-! ## Helper lemmas -/

/-- With equal lengths and nonzero baseline prices, the baseline row's
portfolio value is the plain weight sum (each relative price is `1`). -/
theorem portVal_self (w : List ℚ) : ∀ base : List ℚ, (∀ b ∈ base, b ≠ 0) →
    w.length = base.length → portVal w base base = w.sum := by
  induction w with
  | nil =>
      intro base _ _
      simp [portVal, weightedTerms]
  | cons a w ih =>
      intro base hb hlen
      cases base with
      | nil => simp at hlen
      | cons b bs =>
          have hb0 : b ≠ 0 := hb b (by simp)
          have htail : portVal w bs bs = w.sum :=
            ih bs (fun x hx => hb x (by simp [hx])) (by simpa using hlen)
          simp only [portVal, weightedTerms, List.zipWith_cons_cons, List.sum_cons] at htail ⊢
          rw [div_self hb0, mul_one, htail]

/-- Weighted relative-price sums of nonnegative data are nonnegative. -/
theorem portVal_nonneg (w : List ℚ) : ∀ base ps : List ℚ, (∀ x ∈ w, 0 ≤ x) →
    (∀ b ∈ base, 0 ≤ b) → (∀ p ∈ ps, 0 ≤ p) → 0 ≤ portVal w base ps := by
  induction w with
  | nil => intros; simp [portVal, weightedTerms]
  | cons a w ih =>
      intro base ps hw hb hp
      cases base with
      | nil => simp [portVal, weightedTerms]
      | cons b bs =>
          cases ps with
          | nil => simp [portVal, weightedTerms]
          | cons p ps' =>
              have h1 : 0 ≤ a * (p / b) :=
                mul_nonneg (hw a (by simp)) (div_nonneg (hp p (by simp)) (hb b (by simp)))
              have h2 : 0 ≤ portVal w bs ps' :=
                ih bs ps' (fun x hx => hw x (by simp [hx]))
                  (fun x hx => hb x (by simp [hx])) (fun x hx => hp x (by simp [hx]))
              simp only [portVal, weightedTerms, List.zipWith_cons_cons, List.sum_cons] at h2 ⊢
              exact add_nonneg h1 h2

/-- With positive prices, nonnegative weights of positive total, and
matching lengths, a row's portfolio value is positive. -/
theorem portVal_pos (w : List ℚ) : ∀ base ps : List ℚ, (∀ x ∈ w, 0 ≤ x) → 0 < w.sum →
    w.length = base.length → w.length = ps.length →
    (∀ b ∈ base, 0 < b) → (∀ p ∈ ps, 0 < p) → 0 < portVal w base ps := by
  induction w with
  | nil =>
      intro base ps _ hs _ _ _ _
      simp at hs
  | cons a w ih =>
      intro base ps hw hs hlb hlp hb hp
      cases base with
      | nil => simp at hlb
      | cons b bs =>
          cases ps with
          | nil => simp at hlp
          | cons p ps' =>
              have hw' : ∀ x ∈ w, 0 ≤ x := fun x hx => hw x (by simp [hx])
              have hb' : ∀ x ∈ bs, 0 < x := fun x hx => hb x (by simp [hx])
              have hp' : ∀ x ∈ ps', 0 < x := fun x hx => hp x (by simp [hx])
              simp only [portVal, weightedTerms, List.zipWith_cons_cons, List.sum_cons]
              rcases eq_or_lt_of_le (hw a (by simp)) with ha | ha
              · have hws : 0 < w.sum := by
                  simpa [← ha] using hs
                have hrec : 0 < portVal w bs ps' :=
                  ih bs ps' hw' hws (by simpa using hlb) (by simpa using hlp) hb' hp'
                have hterm : 0 ≤ a * (p / b) := by rw [← ha]; simp
                simp only [portVal, weightedTerms] at hrec
                exact add_pos_of_nonneg_of_pos hterm hrec
              · have hterm : 0 < a * (p / b) :=
                  mul_pos ha (div_pos (hp p (by simp)) (hb b (by simp)))
                have hrest : 0 ≤ portVal w bs ps' :=
                  portVal_nonneg w bs ps' hw' (fun x hx => le_of_lt (hb' x hx))
                    (fun x hx => le_of_lt (hp' x hx))
                simp only [portVal, weightedTerms] at hrest
                exact add_pos_of_pos_of_nonneg hterm hrest

/-- `pctRows` keeps the dates of the underlying net-value pairs. -/
theorem pctRows_map_date (l : List (Nat × ℚ)) :
    ∀ prev : ℚ, (pctRows prev l).map NVRow.date = l.map Prod.fst := by
  induction l with
  | nil => intro prev; rfl
  | cons hd tl ih =>
      intro prev
      obtain ⟨d, v⟩ := hd
      simp [pctRows, ih v]

/-- The computed segment has exactly the dates of the aligned frame. -/
theorem compute_net_values_map_date (frame : Frame) (w : List ℚ) (v : ℚ) :
    (compute_net_values frame w v).map NVRow.date = frame.map Prod.fst := by
  cases frame with
  | nil => rfl
  | cons hd rest =>
      obtain ⟨d0, base⟩ := hd
      simp [compute_net_values, pctRows_map_date, List.map_map, Function.comp]

/-- Consecutive rows produced by `pctRows` satisfy the percent-change
recurrence `pct = (cur - prev) / prev`, provided no net value is zero. -/
theorem pctRows_chain (l : List (Nat × ℚ)) :
    ∀ a : NVRow, a.net_value ≠ 0 → (∀ p ∈ l, p.2 ≠ 0) →
      List.Chain' (fun x y : NVRow =>
        y.pct_change = (y.net_value - x.net_value) / x.net_value)
        (a :: pctRows a.net_value l) := by
  induction l with
  | nil => intro a _ _; simp [pctRows]
  | cons hd tl ih =>
      intro a ha hl
      obtain ⟨d, v⟩ := hd
      have hv : v ≠ 0 := hl (d, v) (by simp)
      have hrel : (⟨d, v, v / a.net_value - 1⟩ : NVRow).pct_change =
          ((⟨d, v, v / a.net_value - 1⟩ : NVRow).net_value - a.net_value) / a.net_value := by
        show v / a.net_value - 1 = (v - a.net_value) / a.net_value
        rw [sub_div, div_self ha]
      have htail := ih ⟨d, v, v / a.net_value - 1⟩ hv (fun p hp => hl p (by simp [hp]))
      exact List.Chain'.cons hrel htail

/-- Shape of the computed segment on a nonempty frame: the anchor row is
`(first date, start_value, 0)` exactly. -/
theorem compute_net_values_cons (d0 : Nat) (base : List ℚ) (rest : List (Nat × List ℚ))
    (w : List ℚ) (v : ℚ) (hb : ∀ b ∈ base, b ≠ 0) (hlen : w.length = base.length)
    (hsum : w.sum ≠ 0) :
    compute_net_values ((d0, base) :: rest) w v =
      ⟨d0, v, 0⟩ :: pctRows v (rest.map (fun r => (r.1, portVal w base r.2 / w.sum * v))) := by
  simp only [compute_net_values]
  rw [portVal_self w base hb hlen, div_self hsum, one_mul]

/-- In a strictly date-sorted list, every date is at most the last one. -/
theorem date_le_getLast_of_sorted (l : List NVRow) (lr : NVRow)
    (hs : List.Pairwise (fun a b : NVRow => a.date < b.date) l)
    (hl : l.getLast? = some lr) : ∀ a ∈ l, a.date ≤ lr.date := by
  induction l with
  | nil => simp at hl
  | cons x xs ih =>
      intro a ha
      cases xs with
      | nil =>
          simp only [List.getLast?_singleton, Option.some_inj] at hl
          simp only [List.mem_singleton] at ha
          subst hl; subst ha; exact le_rfl
      | cons y ys =>
          rw [List.getLast?_cons_cons] at hl
          rcases List.mem_cons.1 ha with rfl | ha'
          · have hlr_mem : lr ∈ y :: ys := List.mem_of_getLast?_eq_some hl
            exact le_of_lt ((List.pairwise_cons.1 hs).1 lr hlr_mem)
          · exact ih (List.pairwise_cons.1 hs).2 hl a ha'

/-! ## Claims -/

/-- C4 (confirmed): for every nonempty aligned price matrix, weight
vector (nonnegative, positive total) and start value `V0 > 0`,
`compute_net_values` starts at exactly `(first date, V0, 0)` and every
later row's `pct_change` is `(net_value − prev) / prev`. -/
theorem C4_compute_anchor_and_pct (frame : Frame) (w : List ℚ) (v0 : ℚ)
    (d0 : Nat) (base : List ℚ) (rest : List (Nat × List ℚ))
    (hframe : frame = (d0, base) :: rest)
    (hlen : ∀ r ∈ frame, w.length = r.2.length)
    (hpos : ∀ r ∈ frame, ∀ p ∈ r.2, 0 < p)
    (hw : ∀ x ∈ w, 0 ≤ x) (hwsum : 0 < w.sum) (hv0 : 0 < v0) :
    (compute_net_values frame w v0).head? = some ⟨d0, v0, 0⟩ ∧
    List.Chain' (fun a b : NVRow =>
      b.pct_change = (b.net_value - a.net_value) / a.net_value)
      (compute_net_values frame w v0) := by
  subst hframe
  have hbase_mem : (d0, base) ∈ (d0, base) :: rest := by simp
  have hbpos : ∀ b ∈ base, 0 < b := hpos _ hbase_mem
  have hbne : ∀ b ∈ base, b ≠ 0 := fun b hb => ne_of_gt (hbpos b hb)
  have hlenb : w.length = base.length := hlen _ hbase_mem
  have hsne : w.sum ≠ 0 := ne_of_gt hwsum
  rw [compute_net_values_cons d0 base rest w v0 hbne hlenb hsne]
  refine ⟨rfl, ?_⟩
  have hval : ∀ p ∈ rest.map (fun r => (r.1, portVal w base r.2 / w.sum * v0)), p.2 ≠ 0 := by
    intro p hp
    rcases List.mem_map.1 hp with ⟨r, hr, rfl⟩
    have hmem : r ∈ (d0, base) :: rest := List.mem_cons_of_mem _ hr
    have h1 : 0 < portVal w base r.2 :=
      portVal_pos w base r.2 hw hwsum hlenb (hlen r hmem) hbpos (hpos r hmem)
    exact ne_of_gt (mul_pos (div_pos h1 hwsum) hv0)
  exact pctRows_chain _ ⟨d0, v0, 0⟩ (ne_of_gt hv0) hval

/-- C4 witness: the spec's end-to-end scenario — allocation 60/40,
prices A = 100,110,121 and B = 50,45,40.5 — instantiates the theorem. -/
theorem C4_witness :
    ((∀ r ∈ ([(0, [100, 50]), (1, [110, 45]), (2, [121, 81/2])] : Frame),
        ∀ p ∈ r.2, 0 < p) ∧ 0 < ([3/5, 2/5] : List ℚ).sum) ∧
    ((compute_net_values [(0, [100, 50]), (1, [110, 45]), (2, [121, 81/2])]
        [3/5, 2/5] 1).head? = some ⟨0, 1, 0⟩ ∧
      List.Chain' (fun a b : NVRow =>
        b.pct_change = (b.net_value - a.net_value) / a.net_value)
        (compute_net_values [(0, [100, 50]), (1, [110, 45]), (2, [121, 81/2])]
          [3/5, 2/5] 1)) :=
  ⟨⟨by norm_num, by norm_num⟩,
    C4_compute_anchor_and_pct _ _ _ 0 [100, 50] [(1, [110, 45]), (2, [121, 81/2])] rfl
      (by decide) (by norm_num) (by norm_num) (by norm_num) (by norm_num)⟩

/-- C3 counterexample: with `rebalance_date = 10 > last_date = 5` and
`today = 12`, the fetch window starts at `max(rebalance_date, last_date)
= 10`, so the computed segment's first row has date 10, not
`last_date = 5` — yet `main` still discards it, losing the day-10 row
from the written history. -/
theorem C3_counterexample :
    fetch_prices respC3 ["A"] (max 10 5) 12 =
      Except.ok [(10, [100]), (11, [110]), (12, [121])] ∧
    (compute_net_values [(10, [100]), (11, [110]), (12, [121])] [1] 1).head? =
      some ⟨10, 1, 0⟩ ∧
    (10 : Nat) ≠ 5 ∧
    ((main 10 [("A", 1)] [[⟨5, 1, 0⟩]] 12 respC3).netValuesWrite).map
      (fun l => l.map NVRow.date) = some [5, 11, 12] := by
  refine ⟨rfl, ?_, by decide, by rfl⟩
  rw [compute_net_values_cons 10 [100] [(11, [110]), (12, [121])] [1] 1
    (by norm_num) rfl (by norm_num)]
  rfl

/-- C3 amended: the segment is computed over the fetched window with
`start_value = last_value`, and its first row — discarded
unconditionally by `main` — reproduces `(last_date, last_value, 0)`
exactly whenever the window's first aligned date is `last_date` (which
requires `rebalance_date ≤ last_date` and `last_date` to be a common
trading day); every remaining (appended) row has date strictly greater
than `last_date`. -/
theorem C3_amended (existing : List NVRow) (lastRow : NVRow) (frame : Frame)
    (w : List ℚ) (d0 : Nat) (base : List ℚ) (rest : List (Nat × List ℚ))
    (_hlast : existing.getLast? = some lastRow)
    (hframe : frame = (d0, base) :: rest)
    (hanchor : d0 = lastRow.date)
    (hb : ∀ b ∈ base, b ≠ 0)
    (hlen : w.length = base.length)
    (hsum : w.sum ≠ 0)
    (hsorted : List.Pairwise (· < ·) (frame.map Prod.fst)) :
    (compute_net_values frame w lastRow.net_value).head? =
      some ⟨lastRow.date, lastRow.net_value, 0⟩ ∧
    ∀ r ∈ (compute_net_values frame w lastRow.net_value).drop 1,
      lastRow.date < r.date := by
  subst hframe
  subst hanchor
  rw [compute_net_values_cons _ _ _ _ _ hb hlen hsum]
  simp only [List.map_cons] at hsorted
  refine ⟨rfl, ?_⟩
  intro r hr
  simp only [List.drop_succ_cons, List.drop_zero] at hr
  have hdate : r.date ∈ (pctRows lastRow.net_value
      (rest.map (fun r => (r.1, portVal w base r.2 / w.sum * lastRow.net_value)))).map
        NVRow.date :=
    List.mem_map_of_mem _ hr
  rw [pctRows_map_date] at hdate
  have hmem : r.date ∈ rest.map Prod.fst := by
    simpa [List.map_map, Function.comp] using hdate
  exact (List.pairwise_cons.1 hsorted).1 _ hmem

/-- C3 amended witness: resuming from `(5, 1)` over the window starting
at day 5 reproduces the anchor row exactly and appends only later
dates. -/
theorem C3_amended_witness :
    (([⟨5, 1, 0⟩] : List NVRow).getLast? = some ⟨5, 1, 0⟩ ∧
      List.Pairwise (· < ·) (([(5, [100]), (6, [110]), (7, [121])] : Frame).map Prod.fst)) ∧
    ((compute_net_values [(5, [100]), (6, [110]), (7, [121])] [1]
        (⟨5, 1, 0⟩ : NVRow).net_value).head? = some ⟨(⟨5, 1, 0⟩ : NVRow).date,
          (⟨5, 1, 0⟩ : NVRow).net_value, 0⟩ ∧
      ∀ r ∈ (compute_net_values [(5, [100]), (6, [110]), (7, [121])] [1]
          (⟨5, 1, 0⟩ : NVRow).net_value).drop 1, (⟨5, 1, 0⟩ : NVRow).date < r.date) :=
  ⟨⟨by rfl, by decide⟩,
    C3_amended [⟨5, 1, 0⟩] ⟨5, 1, 0⟩ _ [1] 5 [100] [(6, [110]), (7, [121])]
      (by rfl) rfl rfl (by norm_num) rfl (by norm_num) (by decide)⟩

/-- `liveWeightsStep` either writes no live portfolio or reports no
fatal error: the live write happens only on a successful fetch. -/
theorem liveWeightsStep_live_or_fatal (rd td : Nat) (tk : List String) (wf : List ℚ)
    (resp : String → AVJson) (nw : Option (List NVRow)) :
    (liveWeightsStep rd td tk wf resp nw).livePortfolioWrite = none ∨
    (liveWeightsStep rd td tk wf resp nw).fatal = none := by
  unfold liveWeightsStep
  cases fetch_prices resp tk rd td <;> simp

/-- The fresh-history branch either writes no live portfolio or
succeeds. -/
theorem freshBranch_live_or_fatal (rd td : Nat) (tk : List String) (wf : List ℚ)
    (resp : String → AVJson) :
    (freshBranch rd td tk wf resp).livePortfolioWrite = none ∨
    (freshBranch rd td tk wf resp).fatal = none := by
  unfold freshBranch
  by_cases hle : td ≤ rd
  · simp [hle]
  · rw [if_neg hle]
    cases fetch_prices resp tk rd td with
    | error e => simp
    | ok frame => exact liveWeightsStep_live_or_fatal rd td tk wf resp _

/-- Across every branch of `main`, a run that reports a fatal error has
not written the live-portfolio record. -/
theorem main_live_or_fatal (rd : Nat) (base : List (String × ℚ))
    (cands : List (List NVRow)) (td : Nat) (resp : String → AVJson) :
    (main rd base cands td resp).livePortfolioWrite = none ∨
    (main rd base cands td resp).fatal = none := by
  rcases hc : chooseEarliest (cands.map load_net_values) with _ | existing
  · simpa [main, hc] using freshBranch_live_or_fatal rd td _ _ resp
  · rcases hl : existing.getLast? with _ | lastRow
    · simpa [main, hc, hl] using freshBranch_live_or_fatal rd td _ _ resp
    · by_cases hle : td ≤ lastRow.date
      · simp [main, hc, hl, hle]
      · rcases hf : fetch_prices resp (base.map Prod.fst) (max rd lastRow.date) td with e | frame
        · simp [main, hc, hl, hle, hf]
        · simpa [main, hc, hl, hle, hf] using
            liveWeightsStep_live_or_fatal rd td _ _ resp _

/-- C1 counterexample: when the chosen persisted series already covers
today (`today ≤ last_date`), `main` returns at the up-to-date check
without fetching anything and without writing either record — the live
portfolio is NOT rewritten, although the claim says it is rewritten on
every run. -/
theorem C1_counterexample :
    main 1 [("A", 1)] [[⟨5, 1, 0⟩]] 5 (fun _ => AVJson.invalid) =
      ⟨none, none, none⟩ := by rfl

/-- C1 amended: on every run that passes the up-to-date check with a
usable persisted series and whose two fetches succeed, the history is
merged and written and the live portfolio is recomputed from a fresh
fetch over `[rebalance_date, today]` and written in full. -/
theorem C1_amended (rebalance_date : Nat) (base : List (String × ℚ))
    (candidates : List (List NVRow)) (today : Nat) (responses : String → AVJson)
    (existing : List NVRow) (lastRow : NVRow) (frame₁ frame₂ : Frame)
    (hchoose : chooseEarliest (candidates.map load_net_values) = some existing)
    (hlast : existing.getLast? = some lastRow)
    (hnew : lastRow.date < today)
    (hf1 : fetch_prices responses (base.map Prod.fst)
      (max rebalance_date lastRow.date) today = Except.ok frame₁)
    (hf2 : fetch_prices responses (base.map Prod.fst) rebalance_date today =
      Except.ok frame₂) :
    main rebalance_date base candidates today responses =
      ⟨some (existing ++ (compute_net_values frame₁
          ((base.map Prod.snd).map (fun w => w / (base.map Prod.snd).sum))
          lastRow.net_value).drop 1),
        some (update_live_weights
          ((base.map Prod.snd).map (fun w => w / (base.map Prod.snd).sum)) frame₂),
        none⟩ := by
  simp [main, liveWeightsStep, hchoose, hlast, not_le.2 hnew, hf1, hf2]

/-- C1 amended witness: a resume run on day 7 from `(5, 1)` writes both
records. -/
theorem C1_amended_witness :
    ((5 : Nat) < 7 ∧
      fetch_prices respOk ([("A", (1 : ℚ))].map Prod.fst) (max 1 5) 7 =
        Except.ok [(5, [100]), (6, [110]), (7, [121])]) ∧
    main 1 [("A", 1)] [[⟨5, 1, 0⟩]] 7 respOk =
      ⟨some ([⟨5, 1, 0⟩] ++ (compute_net_values [(5, [100]), (6, [110]), (7, [121])]
          (([("A", (1 : ℚ))].map Prod.snd).map
            (fun w => w / ([("A", (1 : ℚ))].map Prod.snd).sum))
          (⟨5, 1, 0⟩ : NVRow).net_value).drop 1),
        some (update_live_weights
          (([("A", (1 : ℚ))].map Prod.snd).map
            (fun w => w / ([("A", (1 : ℚ))].map Prod.snd).sum))
          [(5, [100]), (6, [110]), (7, [121])]),
        none⟩ :=
  ⟨⟨by decide, by rfl⟩,
    C1_amended 1 [("A", 1)] [[⟨5, 1, 0⟩]] 7 respOk [⟨5, 1, 0⟩] ⟨5, 1, 0⟩
      [(5, [100]), (6, [110]), (7, [121])] [(5, [100]), (6, [110]), (7, [121])]
      (by rfl) (by rfl) (by decide) (by rfl) (by rfl)⟩

/-- C2 counterexample: the live-weights fetch runs after the history
write, so a failure there leaves the freshly written history behind: in
this run the history record was rewritten (and grew to days 105–107)
while the run aborted fatally — contradicting the claim that a failed
run persists neither record. -/
theorem C2_counterexample :
    ((main 101 [("A", 1)] [[⟨105, 1, 0⟩]] 107 respC2).netValuesWrite).map
        (fun l => l.map NVRow.date) = some [105, 106, 107] ∧
    (main 101 [("A", 1)] [[⟨105, 1, 0⟩]] 107 respC2).fatal =
      some "KeyError: 1. open" ∧
    (main 101 [("A", 1)] [[⟨105, 1, 0⟩]] 107 respC2).livePortfolioWrite = none :=
  ⟨by rfl, by rfl, by rfl⟩

/-- C2 amended: a fetch failure in the history phase aborts the run with
neither record written (both with and without a usable persisted
series); and in every aborted run, whatever the failure, the
live-portfolio record has not been written. Only the history record can
survive a failed run — when the failure hits the final live-weights
fetch, after the history write. -/
theorem C2_no_partial_write (rebalance_date : Nat) (base : List (String × ℚ))
    (candidates : List (List NVRow)) (today : Nat) (responses : String → AVJson) :
    (∀ e, (main rebalance_date base candidates today responses).fatal = some e →
      (main rebalance_date base candidates today responses).livePortfolioWrite = none) ∧
    (∀ (existing : List NVRow) (lastRow : NVRow) (e : String),
      chooseEarliest (candidates.map load_net_values) = some existing →
      existing.getLast? = some lastRow →
      lastRow.date < today →
      fetch_prices responses (base.map Prod.fst) (max rebalance_date lastRow.date) today =
        Except.error e →
      main rebalance_date base candidates today responses = ⟨none, none, some e⟩) ∧
    (∀ e : String,
      chooseEarliest (candidates.map load_net_values) = none →
      rebalance_date < today →
      fetch_prices responses (base.map Prod.fst) rebalance_date today = Except.error e →
      main rebalance_date base candidates today responses = ⟨none, none, some e⟩) := by
  refine ⟨?_, ?_, ?_⟩
  · intro e hf
    rcases main_live_or_fatal rebalance_date base candidates today responses with h | h
    · exact h
    · rw [hf] at h
      simp at h
  · intro existing lastRow e hc hl hlt hf
    simp [main, hc, hl, not_le.2 hlt, hf]
  · intro e hc hlt hf
    simp [main, freshBranch, hc, not_le.2 hlt, hf]

/-- C2 amended witness: a run whose history-phase fetch returns no data
aborts with neither record written. -/
theorem C2_no_partial_write_witness :
    (chooseEarliest ([[⟨5, 1, 0⟩]].map load_net_values) = some [⟨5, 1, 0⟩] ∧
      fetch_prices respEmpty ([("A", (1 : ℚ))].map Prod.fst) (max 1 5) 6 =
        Except.error "No data returned for A; aborting update.") ∧
    main 1 [("A", 1)] [[⟨5, 1, 0⟩]] 6 respEmpty =
      ⟨none, none, some "No data returned for A; aborting update."⟩ :=
  ⟨⟨by rfl, by rfl⟩,
    (C2_no_partial_write 1 [("A", 1)] [[⟨5, 1, 0⟩]] 6 respEmpty).2.1
      [⟨5, 1, 0⟩] ⟨5, 1, 0⟩ _ (by rfl) (by rfl) (by decide) (by rfl)⟩

/-- C5 (confirmed): `main` is a pure function of its inputs, so a second
run with identical inputs returns the identical result; and when the
chosen persisted series already reaches today (`today ≤ last_date`) the
run is a no-op independent of the provider — the history record is left
exactly as persisted and nothing is appended, so re-running the
pipeline on the same day cannot add duplicate or divergent rows. -/
theorem C5_same_day_noop (rebalance_date : Nat) (base : List (String × ℚ))
    (candidates : List (List NVRow)) (today : Nat) (responses : String → AVJson)
    (existing : List NVRow) (lastRow : NVRow)
    (hchoose : chooseEarliest (candidates.map load_net_values) = some existing)
    (hlast : existing.getLast? = some lastRow)
    (hle : today ≤ lastRow.date) :
    main rebalance_date base candidates today responses = ⟨none, none, none⟩ ∧
    ∀ responses₂ : String → AVJson,
      main rebalance_date base candidates today responses₂ =
        main rebalance_date base candidates today responses := by
  have key : ∀ r : String → AVJson,
      main rebalance_date base candidates today r = ⟨none, none, none⟩ := by
    intro r
    simp [main, hchoose, hlast, hle]
  exact ⟨key responses, fun r2 => by rw [key r2, key responses]⟩

/-- C5 witness: a same-day rerun over a two-row persisted series is a
provider-independent no-op. -/
theorem C5_witness :
    (chooseEarliest ([[⟨3, 1, 0⟩, ⟨5, 2, 1/10⟩]].map load_net_values) =
        some [⟨3, 1, 0⟩, ⟨5, 2, 1/10⟩] ∧ (4 : Nat) ≤ 5) ∧
    (main 2 [("B", 2)] [[⟨3, 1, 0⟩, ⟨5, 2, 1/10⟩]] 4 (fun _ => AVJson.invalid) =
        ⟨none, none, none⟩ ∧
      ∀ responses₂ : String → AVJson,
        main 2 [("B", 2)] [[⟨3, 1, 0⟩, ⟨5, 2, 1/10⟩]] 4 responses₂ =
          main 2 [("B", 2)] [[⟨3, 1, 0⟩, ⟨5, 2, 1/10⟩]] 4 (fun _ => AVJson.invalid)) :=
  ⟨⟨by rfl, by decide⟩,
    C5_same_day_noop 2 [("B", 2)] [[⟨3, 1, 0⟩, ⟨5, 2, 1/10⟩]] 4 _
      [⟨3, 1, 0⟩, ⟨5, 2, 1/10⟩] ⟨5, 2, 1/10⟩ (by rfl) (by rfl) (by decide)⟩

/-- C6 counterexample: the system's only date-equality deduplication is
`load_net_values` with keep="last": of two rows sharing date 5 — the
earlier-persisted (existing) row first, the appended row second — the
LAST row wins, not the existing one as the claim states. -/
theorem C6_counterexample :
    load_net_values [⟨5, 1, 0⟩, ⟨5, 2, 0⟩] = [⟨5, 2, 0⟩] ∧
    (⟨5, 2, 0⟩ : NVRow) ≠ ⟨5, 1, 0⟩ := by
  refine ⟨rfl, fun h => ?_⟩
  exact absurd (congrArg NVRow.net_value h) (by norm_num)

/-- C6 amended: the merged series is strictly ascending by date with no
duplicate dates — not because the merge drops duplicates (it drops
nothing), but because every appended row's date is strictly greater
than the existing series' last date, given that the fetched window
starts at `max(rebalance_date, last_date)` and the first computed row
is dropped; duplicate dates inside a persisted file are resolved at
load time keeping the last occurrence. -/
theorem C6_amended (existing : List NVRow) (lastRow : NVRow) (frame : Frame)
    (w : List ℚ) (v : ℚ) (rebalance_date : Nat)
    (hex : List.Pairwise (fun a b : NVRow => a.date < b.date) existing)
    (hlast : existing.getLast? = some lastRow)
    (hsorted : List.Pairwise (· < ·) (frame.map Prod.fst))
    (hwin : ∀ d ∈ frame.map Prod.fst, max rebalance_date lastRow.date ≤ d) :
    List.Pairwise (fun a b : NVRow => a.date < b.date)
      (existing ++ (compute_net_values frame w v).drop 1) ∧
    ((existing ++ (compute_net_values frame w v).drop 1).map NVRow.date).Nodup := by
  have hseg : List.Pairwise (fun a b : NVRow => a.date < b.date)
      (compute_net_values frame w v) := by
    have h := hsorted
    rw [← compute_net_values_map_date frame w v] at h
    exact List.pairwise_map.1 h
  have hdrop : List.Pairwise (fun a b : NVRow => a.date < b.date)
      ((compute_net_values frame w v).drop 1) :=
    hseg.sublist (List.drop_sublist 1 _)
  have hcross : ∀ a ∈ existing, ∀ b ∈ (compute_net_values frame w v).drop 1,
      a.date < b.date := by
    intro a ha b hb
    have hale : a.date ≤ lastRow.date :=
      date_le_getLast_of_sorted existing lastRow hex hlast a ha
    cases hframe : frame with
    | nil =>
        rw [hframe] at hb
        simp [compute_net_values] at hb
    | cons hd rest =>
        obtain ⟨d0, base⟩ := hd
        rw [hframe] at hb hsorted hwin
        have hb' : b.date ∈
            ((compute_net_values ((d0, base) :: rest) w v).map NVRow.date).drop 1 := by
          rw [← List.map_drop]
          exact List.mem_map_of_mem _ hb
        rw [compute_net_values_map_date] at hb'
        simp only [List.map_cons, List.drop_succ_cons, List.drop_zero] at hb'
        simp only [List.map_cons, List.forall_mem_cons] at hwin
        simp only [List.map_cons] at hsorted
        have hd0 : lastRow.date ≤ d0 := le_of_max_le_right hwin.1
        have hlt : d0 < b.date := (List.pairwise_cons.1 hsorted).1 _ hb'
        exact lt_of_le_of_lt (le_trans hale hd0) hlt
  have hall : List.Pairwise (fun a b : NVRow => a.date < b.date)
      (existing ++ (compute_net_values frame w v).drop 1) :=
    List.pairwise_append.2 ⟨hex, hdrop, hcross⟩
  refine ⟨hall, ?_⟩
  have hmap : List.Pairwise (· < ·)
      ((existing ++ (compute_net_values frame w v).drop 1).map NVRow.date) :=
    List.pairwise_map.2 hall
  exact hmap.imp (fun h => ne_of_lt h)

/-- C6 amended witness: appending the post-anchor rows of a resumed
segment to a two-row history keeps dates strictly ascending and
duplicate-free. -/
theorem C6_amended_witness :
    (List.Pairwise (fun a b : NVRow => a.date < b.date)
        ([⟨3, 1, 0⟩, ⟨5, 2, 0⟩] : List NVRow) ∧
      ∀ d ∈ (([(5, [100]), (6, [110])] : Frame)).map Prod.fst,
        max 1 (⟨5, 2, 0⟩ : NVRow).date ≤ d) ∧
    (List.Pairwise (fun a b : NVRow => a.date < b.date)
        (([⟨3, 1, 0⟩, ⟨5, 2, 0⟩] : List NVRow) ++
          (compute_net_values [(5, [100]), (6, [110])] [1] 2).drop 1) ∧
      ((([⟨3, 1, 0⟩, ⟨5, 2, 0⟩] : List NVRow) ++
          (compute_net_values [(5, [100]), (6, [110])] [1] 2).drop 1).map
        NVRow.date).Nodup) :=
  ⟨⟨by decide, by decide⟩,
    C6_amended [⟨3, 1, 0⟩, ⟨5, 2, 0⟩] ⟨5, 2, 0⟩ [(5, [100]), (6, [110])] [1] 2 1
      (by decide) (by rfl) (by decide) (by decide)⟩

/-- `alignFrames` keeps exactly the sorted common dates as row keys. -/
theorem alignFrames_map_fst (ls : List PriceSeries) :
    (alignFrames ls).map Prod.fst =
      List.insertionSort (fun a b => a ≤ b) (commonDates ls) := by
  unfold alignFrames
  rw [List.map_map,
    show (Prod.fst ∘ fun d => (d, rowAt ls d)) = id from rfl, List.map_id]

/-- C7 (confirmed): for a collection of per-ticker series, the aligned
matrix's rows are exactly the dates present in every series, sorted
strictly ascending (given distinct dates within the reference series);
each row's cells are the per-series prices in the caller-supplied
order; the claim's three-ticker example yields rows {2, 3} in both
input orderings; and an empty intersection aborts the whole fetch. -/
theorem C7_align (ls : List PriceSeries) (s₀ : PriceSeries) (rest : List PriceSeries)
    (hls : ls = s₀ :: rest) (hnd : (seriesDates s₀).Nodup) :
    (∀ d : Nat, d ∈ (alignFrames ls).map Prod.fst ↔ ∀ s ∈ ls, d ∈ seriesDates s) ∧
    List.Pairwise (· < ·) ((alignFrames ls).map Prod.fst) ∧
    (∀ row ∈ alignFrames ls, row.2 = rowAt ls row.1) ∧
    ((alignFrames [[(1, 1), (2, 2), (3, 3)], [(2, 1), (3, 1), (4, 1)],
        [(2, 5), (3, 6)]]).map Prod.fst = [2, 3] ∧
      (alignFrames [[(2, 5), (3, 6)], [(2, 1), (3, 1), (4, 1)],
        [(1, 1), (2, 2), (3, 3)]]).map Prod.fst = [2, 3]) ∧
    (∀ (responses : String → AVJson) (tickers : List String) (sd ed : Nat)
        (seriesList : List PriceSeries),
      tickers.mapM (fun t => fetchSeries responses t sd ed) = Except.ok seriesList →
      alignFrames seriesList = [] →
      fetch_prices responses tickers sd ed =
        Except.error "No overlapping trading days across tickers.") := by
  refine ⟨?_, ?_, ?_, ⟨by rfl, by rfl⟩, ?_⟩
  · intro d
    rw [alignFrames_map_fst, (List.perm_insertionSort _ _).mem_iff]
    subst hls
    simp only [commonDates, List.mem_filter, List.all_eq_true, decide_eq_true_eq,
      List.forall_mem_cons]
  · rw [alignFrames_map_fst]
    have hnodcd : (commonDates ls).Nodup := by
      subst hls
      exact hnd.filter _
    have h1 : List.Sorted (fun a b : Nat => a ≤ b)
        (List.insertionSort (fun a b => a ≤ b) (commonDates ls)) :=
      List.sorted_insertionSort _ _
    have h2 : (List.insertionSort (fun a b : Nat => a ≤ b) (commonDates ls)).Nodup :=
      (List.perm_insertionSort _ _).nodup_iff.2 hnodcd
    exact h1.lt_of_le h2
  · intro row hrow
    rcases List.mem_map.1 hrow with ⟨d, _, rfl⟩
    rfl
  · intro responses tickers sd ed seriesList hmap hempty
    unfold fetch_prices
    rw [hmap]
    simp [hempty]

/-- C7 witness: the claim's example — date sets {1,2,3}, {2,3,4} and
{2,3} — aligned to exactly the rows {2,3}. -/
theorem C7_witness :
    (([(1, (1 : ℚ)), (2, 2), (3, 3)] : PriceSeries) =
        [(1, 1), (2, 2), (3, 3)] ∧
      (seriesDates [(1, (1 : ℚ)), (2, 2), (3, 3)]).Nodup) ∧
    (∀ d : Nat,
      d ∈ (alignFrames [[(1, 1), (2, 2), (3, 3)], [(2, 1), (3, 1), (4, 1)],
          [(2, 5), (3, 6)]]).map Prod.fst ↔
        ∀ s ∈ ([[(1, 1), (2, 2), (3, 3)], [(2, 1), (3, 1), (4, 1)],
          [(2, 5), (3, 6)]] : List PriceSeries), d ∈ seriesDates s) :=
  ⟨⟨rfl, by decide⟩,
    (C7_align [[(1, 1), (2, 2), (3, 3)], [(2, 1), (3, 1), (4, 1)], [(2, 5), (3, 6)]]
      [(1, 1), (2, 2), (3, 3)] [[(2, 1), (3, 1), (4, 1)], [(2, 5), (3, 6)]]
      rfl (by decide)).1⟩

/-- Rounding to 4 decimal places moves a rational by at most `1/20000`. -/
theorem roundTo4_abs (x : ℚ) : |roundTo4 x - x| ≤ 1 / 20000 := by
  have h : |x * 10000 - ((round (x * 10000) : ℤ) : ℚ)| ≤ 1 / 2 :=
    abs_sub_round (x * 10000)
  have heq : roundTo4 x - x = (((round (x * 10000) : ℤ) : ℚ) - x * 10000) / 10000 := by
    unfold roundTo4; ring
  rw [heq, abs_div, abs_sub_comm]
  have h10 : |(10000 : ℚ)| = 10000 := by norm_num
  rw [h10]
  calc |x * 10000 - ((round (x * 10000) : ℤ) : ℚ)| / 10000
      ≤ (1 / 2) / 10000 := by gcongr
    _ = 1 / 20000 := by norm_num

/-- Rounding each entry of a list to 4 decimal places moves its sum by
at most `length/20000`. -/
theorem sum_map_roundTo4 (xs : List ℚ) :
    |(xs.map roundTo4).sum - xs.sum| ≤ (xs.length : ℚ) * (1 / 20000) := by
  induction xs with
  | nil => simp
  | cons a l ih =>
      simp only [List.map_cons, List.sum_cons, List.length_cons]
      have h1 := roundTo4_abs a
      have step : roundTo4 a + (l.map roundTo4).sum - (a + l.sum) =
          (roundTo4 a - a) + ((l.map roundTo4).sum - l.sum) := by ring
      rw [step]
      calc |(roundTo4 a - a) + ((l.map roundTo4).sum - l.sum)|
          ≤ |roundTo4 a - a| + |(l.map roundTo4).sum - l.sum| := abs_add _ _
        _ ≤ 1 / 20000 + (l.length : ℚ) * (1 / 20000) := add_le_add h1 ih
        _ = ((l.length : ℚ) + 1) * (1 / 20000) := by ring
        _ = ((l.length + 1 : ℕ) : ℚ) * (1 / 20000) := by push_cast; ring

/-- C8 (confirmed): each live weight is
`round4(100 · w_i·(latest_i/base_i) / Σ_j w_j·(latest_j/base_j))` with
no re-normalization after rounding, and the rounded weights sum to 100
within `n/10000` for `n` tickers (indeed within `n/20000`). -/
theorem C8_live_weights (wf : List ℚ) (frame : Frame) (first : Nat × List ℚ)
    (rest : List (Nat × List ℚ)) (hframe : frame = first :: rest)
    (hw : ∀ x ∈ wf, 0 ≤ x) (hws : 0 < wf.sum)
    (hlenb : wf.length = first.2.length)
    (hlenl : wf.length = (rest.getLastD first).2.length)
    (hbpos : ∀ b ∈ first.2, 0 < b)
    (hlpos : ∀ p ∈ (rest.getLastD first).2, 0 < p) :
    update_live_weights wf frame =
      (weightedTerms wf first.2 (rest.getLastD first).2).map
        (fun v => roundTo4
          (v / (weightedTerms wf first.2 (rest.getLastD first).2).sum * 100)) ∧
    |(update_live_weights wf frame).sum - 100| ≤ (wf.length : ℚ) * (1 / 10000) := by
  subst hframe
  refine ⟨rfl, ?_⟩
  have hspos : 0 < (weightedTerms wf first.2 (rest.getLastD first).2).sum :=
    portVal_pos wf first.2 (rest.getLastD first).2 hw hws hlenb hlenl hbpos hlpos
  set terms := weightedTerms wf first.2 (rest.getLastD first).2 with hterms
  set s := terms.sum with hs
  have hout : update_live_weights wf (first :: rest) =
      (terms.map (fun v => v / s * 100)).map roundTo4 := by
    show terms.map (fun v => roundTo4 (v / s * 100)) =
      (terms.map (fun v => v / s * 100)).map roundTo4
    rw [List.map_map]
    rfl
  have hsum100 : (terms.map (fun v => v / s * 100)).sum = 100 := by
    have h1 : terms.map (fun v => v / s * 100) = terms.map (fun v => v * (100 / s)) :=
      List.map_congr_left (fun v _ => by rw [div_mul_eq_mul_div, mul_div_assoc])
    rw [h1, List.sum_map_mul_right]
    have hid : terms.map (fun v : ℚ => v) = terms := List.map_id' terms
    rw [hid, mul_comm, div_mul_cancel₀ _ (ne_of_gt hspos)]
  have hlen_terms : terms.length = wf.length := by
    rw [hterms]
    simp only [weightedTerms, List.length_zipWith, ← hlenb, ← hlenl, min_self]
  have hb := sum_map_roundTo4 (terms.map (fun v => v / s * 100))
  rw [hsum100, List.length_map, hlen_terms] at hb
  rw [hout]
  calc |((terms.map (fun v => v / s * 100)).map roundTo4).sum - 100|
      ≤ (wf.length : ℚ) * (1 / 20000) := hb
    _ ≤ (wf.length : ℚ) * (1 / 10000) := by gcongr; norm_num

/-- C8 witness: the 60/40 allocation with prices drifting from
(100, 50) to (121, 40.5) gives rounded weights summing within
tolerance of 100. -/
theorem C8_witness :
    ((∀ x ∈ ([3/5, 2/5] : List ℚ), 0 ≤ x) ∧ 0 < ([3/5, 2/5] : List ℚ).sum) ∧
    (update_live_weights [3/5, 2/5] [(0, [100, 50]), (2, [121, 81/2])] =
        (weightedTerms [3/5, 2/5] [100, 50] [121, 81/2]).map
          (fun v => roundTo4
            (v / (weightedTerms [3/5, 2/5] [100, 50] [121, 81/2]).sum * 100)) ∧
      |(update_live_weights [3/5, 2/5] [(0, [100, 50]), (2, [121, 81/2])]).sum - 100| ≤
        (([3/5, 2/5] : List ℚ).length : ℚ) * (1 / 10000)) :=
  ⟨⟨by norm_num, by norm_num⟩,
    C8_live_weights [3/5, 2/5] _ (0, [100, 50]) [(2, [121, 81/2])] rfl
      (by norm_num) (by norm_num) (by rfl) (by rfl) (by norm_num) (by norm_num)⟩

/-- The running best of the candidate fold is the initial accumulator or
one of the folded candidates. -/
theorem foldl_earliest_mem (rest : List (List NVRow)) :
    ∀ acc : List NVRow,
      rest.foldl (fun best d => if minDate d < minDate best then d else best) acc = acc ∨
      rest.foldl (fun best d => if minDate d < minDate best then d else best) acc ∈ rest := by
  induction rest with
  | nil => exact fun _ => Or.inl rfl
  | cons d rest ih =>
      intro acc
      simp only [List.foldl_cons]
      rcases ih (if minDate d < minDate acc then d else acc) with h | h
      · rw [h]
        by_cases hlt : minDate d < minDate acc
        · rw [if_pos hlt]; exact Or.inr (by simp)
        · rw [if_neg hlt]; exact Or.inl rfl
      · exact Or.inr (List.mem_cons_of_mem _ h)

/-- The fold keeps a candidate whose earliest date is minimal among the
accumulator and all folded candidates. -/
theorem foldl_earliest_le (rest : List (List NVRow)) :
    ∀ acc : List NVRow,
      minDate (rest.foldl (fun best d => if minDate d < minDate best then d else best) acc) ≤
        minDate acc ∧
      ∀ c ∈ rest,
        minDate (rest.foldl (fun best d => if minDate d < minDate best then d else best) acc) ≤
          minDate c := by
  induction rest with
  | nil => exact fun _ => ⟨le_rfl, by simp⟩
  | cons d rest ih =>
      intro acc
      simp only [List.foldl_cons]
      obtain ⟨h1, h2⟩ := ih (if minDate d < minDate acc then d else acc)
      have hacc : minDate (if minDate d < minDate acc then d else acc) ≤ minDate acc := by
        by_cases hlt : minDate d < minDate acc
        · rw [if_pos hlt]; exact le_of_lt hlt
        · rw [if_neg hlt]
      have hd : minDate (if minDate d < minDate acc then d else acc) ≤ minDate d := by
        by_cases hlt : minDate d < minDate acc
        · rw [if_pos hlt]
        · rw [if_neg hlt]; exact le_of_not_lt hlt
      refine ⟨le_trans h1 hacc, ?_⟩
      intro c hc
      rcases List.mem_cons.1 hc with rfl | hc'
      · exact le_trans h1 hd
      · exact h2 c hc'

/-- C9 (confirmed): when candidate prior histories exist, the merge base
is a single member of the candidate list — never a union or
interleaving — and its earliest date is minimal among all candidates. -/
theorem C9_earliest_base (cands : List (List NVRow)) (existing : List NVRow)
    (h : chooseEarliest cands = some existing) :
    existing ∈ cands ∧ ∀ c ∈ cands, minDate existing ≤ minDate c := by
  cases cands with
  | nil => simp [chooseEarliest] at h
  | cons c rest =>
      simp only [chooseEarliest, Option.some.injEq] at h
      subst h
      constructor
      · rcases foldl_earliest_mem rest c with h | h
        · rw [h]; exact List.mem_cons_self c rest
        · exact List.mem_cons_of_mem _ h
      · intro x hx
        obtain ⟨h1, h2⟩ := foldl_earliest_le rest c
        rcases List.mem_cons.1 hx with rfl | hx'
        · exact h1
        · exact h2 x hx'

/-- C9 witness: of a short recent history starting at day 10 and a
longer legacy one starting at day 3, the legacy one is chosen whole. -/
theorem C9_witness :
    chooseEarliest [[⟨10, 1, 0⟩], [⟨3, 1, 0⟩, ⟨7, 2, 0⟩]] =
      some [⟨3, 1, 0⟩, ⟨7, 2, 0⟩] ∧
    ([⟨3, 1, 0⟩, ⟨7, 2, 0⟩] ∈
        ([[⟨10, 1, 0⟩], [⟨3, 1, 0⟩, ⟨7, 2, 0⟩]] : List (List NVRow)) ∧
      ∀ c ∈ ([[⟨10, 1, 0⟩], [⟨3, 1, 0⟩, ⟨7, 2, 0⟩]] : List (List NVRow)),
        minDate [⟨3, 1, 0⟩, ⟨7, 2, 0⟩] ≤ minDate c) :=
  ⟨by rfl, C9_earliest_base _ _ (by rfl)⟩

/-- C10 counterexample: a response whose time series is present but whose
bar lacks the fields the parser reads makes `get_daily_historic_data`
raise to its caller (the `KeyError` is outside the `try` block) instead
of returning an empty DataFrame. -/
theorem C10_counterexample :
    get_daily_historic_data (AVJson.obj (some [(5, ⟨[]⟩)]) none none) 0 10 =
      Except.error "KeyError: 1. open" := by rfl

/-- C10 amended: failures detected in the request/decode phase (HTTP or
JSON failure, missing `Time Series (Daily)` member — rate-limit notes,
invalid symbols) are caught and yield an empty DataFrame rather than an
exception (malformed bars inside a present time series still raise);
and `fetch_prices` turns an empty per-ticker result — an empty fetch or
no rows inside the requested window — into a fatal abort naming the
ticker. -/
theorem C10_failures_empty_and_fatal (start_date end_date : Nat)
    (note errMsg : Option String) (responses : String → AVJson) (t : String)
    (s e : Nat) (df : List (Nat × ℚ)) :
    get_daily_historic_data AVJson.invalid start_date end_date = Except.ok [] ∧
    get_daily_historic_data (AVJson.obj none note errMsg) start_date end_date =
      Except.ok [] ∧
    (get_daily_historic_data (responses t) (s - 7) e = Except.ok df →
      ((df = [] → fetchSeries responses t s e =
          Except.error ("No data returned for " ++ t ++ "; aborting update.")) ∧
        (df ≠ [] → windowFilter s e df = [] → fetchSeries responses t s e =
          Except.error ("No data in requested window for " ++ t)))) := by
  refine ⟨rfl, rfl, ?_⟩
  intro hdf
  constructor
  · intro hnil
    subst hnil
    simp [fetchSeries, hdf]
  · intro hne hwin
    unfold fetchSeries
    rw [hdf]
    simp [hwin, hne]

/-- C10 witness: a rate-limit-style response with no time series yields
an empty frame, which `fetchSeries` turns into a fatal abort naming the
ticker. -/
theorem C10_witness :
    get_daily_historic_data (respEmpty "A") (6 - 7) 9 = Except.ok [] ∧
    fetchSeries respEmpty "A" 6 9 =
      Except.error "No data returned for A; aborting update." :=
  ⟨by rfl,
    ((C10_failures_empty_and_fatal 0 9 none none respEmpty "A" 6 9 []).2.2
      (by rfl)).1 rfl⟩

end MarketData
